import Mathlib

/-!
# Verification of the `pretok` pre-tokenizer

A shallow embedding of `src/lib.rs` (crate `pretok`): a pre-lexical scanner
for C-like source text.  The input string is modelled as a `List Char` of
Unicode code points; a `StrCursor` position is modelled as the index of the
code point it sits in front of, and its `byte_pos()` as the total UTF-8 byte
length of the code points before it (`byteOff`).  `cp_after()` returning
`None` corresponds to the cursor index having reached the end of the list.

The definitions below mirror the source:
* `Pretoken`, `Pretoken.new` (with `slice_between(..).unwrap()` modelled as
  an `Option`, `none` standing for the panic of `unwrap`),
* `Pretokenizer`, `Pretokenizer.new`, `make_pretok`,
* `STATE` and `loop`, the scanning loop inside `Iterator::next`,
* `next`, one call of the iterator, returning the emitted pretoken (if any)
  together with the mutated scanner state,
* `tokens`, the full pretoken sequence of an input, and `advanceN`,
  repeated calls of `next`.
-/

set_option linter.unusedVariables false

namespace Pretok

/-- UTF-8 encoding of one code point, as the list of its byte values.
Models the byte layout that `StrCursor::byte_pos` counts over. -/
def encodeChar (c : Char) : List Nat :=
  let n := c.toNat
  if n < 0x80 then [n]
  else if n < 0x800 then [0xC0 + n / 64, 0x80 + n % 64]
  else if n < 0x10000 then [0xE0 + n / 4096, 0x80 + n / 64 % 64, 0x80 + n % 64]
  else [0xF0 + n / 262144, 0x80 + n / 4096 % 64, 0x80 + n / 64 % 64, 0x80 + n % 64]

/-- Total UTF-8 byte length of a list of code points. -/
def utf8Len (s : List Char) : Nat := (s.map (fun c => (encodeChar c).length)).sum

/-- The UTF-8 byte sequence of a list of code points. -/
def toBytes (s : List Char) : List Nat := (s.map encodeChar).flatten

/-- `byte_pos()` of the cursor standing before code point `i` of `input`. -/
def byteOff (input : List Char) (i : Nat) : Nat := utf8Len (input.take i)

/-- The code points of `input` from index `s` (inclusive) to `e` (exclusive). -/
def slice (input : List Char) (s e : Nat) : List Char := (input.take e).drop s

/-- `StrCursor::slice_between`: the slice between two cursors of the same
string, defined when the first is not after the second. -/
def sliceBetween (input : List Char) (s e : Nat) : Option (List Char) :=
  if s ≤ e ∧ e ≤ input.length then some (slice input s e) else none

/-- A pretoken: the slice `s` of the input, the (1-based) line number of the
last line of the pretoken, and the byte offset of its first character. -/
structure Pretoken where
  s : List Char
  line : Nat
  offset : Nat
deriving DecidableEq, Repr

/-- `Pretoken::new`: builds the pretoken from the slice between the two
cursors; `none` models the panic of `slice_between(end).unwrap()`. -/
def Pretoken.new (input : List Char) (start e line offset : Nat) : Option Pretoken :=
  (sliceBetween input start e).map (fun str => ⟨str, line, offset⟩)

/-- The scanner: the cursor to the current code point (`pos`, a code-point
index) and the current line counter. -/
structure Pretokenizer where
  pos : Nat
  line : Nat
deriving DecidableEq, Repr

/-- `Pretokenizer::new`: position at the start, line numbers are 1-based. -/
def Pretokenizer.new : Pretokenizer := ⟨0, 1⟩

/-- `Pretokenizer::make_pretok`: if the position has not moved, return
`None`; otherwise emit the pretoken from `self.pos` to `e` and move the
scanner's resume position to `e`. -/
def make_pretok (input : List Char) (self : Pretokenizer) (e : Nat) :
    Option Pretoken × Pretokenizer :=
  if e = self.pos then (none, self)
  else (Pretoken.new input self.pos e self.line (byteOff input self.pos),
        ⟨e, self.line⟩)

/-- The states of the scanning loop in `Iterator::next`. -/
inductive STATE where
  | WS
  | MaybeComment
  | LineComment
  | BlockComment
  | MaybeBlockCommentDone
  | StartTok
  | NormalTok
  | QuotedTok
  | EscapeChar
deriving DecidableEq, Repr

/-- Rank used for the termination measure of `loop`: the only transitions
that do not consume a code point are WS → StartTok, MaybeComment → StartTok
and LineComment → WS, each of which strictly lowers the rank. -/
def rank : STATE → Nat
  | .LineComment => 3
  | .WS => 2
  | .MaybeComment => 2
  | _ => 1

/-- The end-of-input handling at the top of the Rust scanning loop (the
`copt.is_none()` block): flush the pending token in NormalTok, QuotedTok and
EscapeChar, otherwise sync the cursor position and return `None`. -/
def eof_step (input : List Char) (self : Pretokenizer) (state : STATE) (curs : Nat) :
    Option Pretoken × Pretokenizer :=
  match state with
  | .NormalTok => make_pretok input self curs
  | .QuotedTok => make_pretok input self curs
  | .EscapeChar => make_pretok input self curs
  | _ => (none, ⟨curs, self.line⟩)

/-- The scanning loop of `Iterator::next` for `Pretokenizer`.  `self` is the
scanner (`self.pos` is its resume position, mutated only by `StartTok` and by
`make_pretok`), `curs` the local lookahead cursor.  The bounds test models
`curs.cp_after().is_none()`; the `else` branch is the end-of-input handling
at the top of the Rust loop. -/
def loop (input : List Char) (self : Pretokenizer) (state : STATE) (curs : Nat) :
    Option Pretoken × Pretokenizer :=
  if hlt : curs < input.length then
    let c := input[curs]
    match state with
    | .WS =>
      if c = '\n' then loop input ⟨self.pos, self.line + 1⟩ .WS (curs + 1)
      else if c = ' ' ∨ c = '\t' then loop input self .WS (curs + 1)
      else if c = '/' then loop input self .MaybeComment (curs + 1)
      else loop input self .StartTok curs
    | .MaybeComment =>
      if c = '/' then loop input self .LineComment (curs + 1)
      else if c = '*' then loop input self .BlockComment (curs + 1)
      else loop input self .StartTok curs
    | .LineComment =>
      if c = '\n' then loop input self .WS curs
      else loop input self .LineComment (curs + 1)
    | .BlockComment =>
      if c = '*' then loop input self .MaybeBlockCommentDone (curs + 1)
      else if c = '\n' then loop input ⟨self.pos, self.line + 1⟩ .BlockComment (curs + 1)
      else loop input self .BlockComment (curs + 1)
    | .MaybeBlockCommentDone =>
      if c = '/' then loop input self .WS (curs + 1)
      else if c = '\n' then loop input ⟨self.pos, self.line + 1⟩ .BlockComment (curs + 1)
      else loop input self .BlockComment (curs + 1)
    | .StartTok =>
      if c = '"' then loop input ⟨curs, self.line⟩ .QuotedTok (curs + 1)
      else loop input ⟨curs, self.line⟩ .NormalTok (curs + 1)
    | .NormalTok =>
      if c = ' ' ∨ c = '\t' then make_pretok input self curs
      else if c = '\n' then make_pretok input self curs
      else if c = '"' then make_pretok input self curs
      else if c = '/' then
        if hlt2 : curs + 1 < input.length then
          if input[curs + 1] = '/' ∨ input[curs + 1] = '*' then make_pretok input self curs
          else loop input self .NormalTok (curs + 1)
        else make_pretok input self (curs + 1)
      else loop input self .NormalTok (curs + 1)
    | .QuotedTok =>
      if c = '\n' then loop input ⟨self.pos, self.line + 1⟩ .QuotedTok (curs + 1)
      else if c = '"' then make_pretok input self (curs + 1)
      else if c = '\\' then loop input self .EscapeChar (curs + 1)
      else loop input self .QuotedTok (curs + 1)
    | .EscapeChar =>
      if c = '\n' then loop input ⟨self.pos, self.line + 1⟩ .QuotedTok (curs + 1)
      else loop input self .QuotedTok (curs + 1)
  else eof_step input self state curs
termination_by (input.length - curs, rank state)
decreasing_by
  all_goals simp only [rank]
  all_goals first
    | exact Prod.Lex.left _ _ (by omega)
    | exact Prod.Lex.right _ (by omega)

/-- `Iterator::next`: start in state WS at the scanner's resume position. -/
def next (input : List Char) (self : Pretokenizer) : Option Pretoken × Pretokenizer :=
  loop input self .WS self.pos

/-- The separator characters of the scanner: the characters that terminate
an unquoted pretoken when met in state NormalTok. -/
def isSep (c : Char) : Prop := c = ' ' ∨ c = '\t' ∨ c = '\n' ∨ c = '"'

instance (c : Char) : Decidable (isSep c) := by
  unfold isSep; infer_instance

/-- Number of newline characters in a list of code points. -/
def countNL (l : List Char) : Nat := l.count '\n'

/-- Invariant of a loop configuration: the resume position never trails the
lookahead cursor; in the token-accumulating states the resume position marks
the start of the pending token, strictly before the cursor; a pending
unquoted token does not start with a quote and its interior (everything
after its first character) holds no separator; a pending quoted token starts
with a quote. -/
def Inv (input : List Char) (state : STATE) (curs : Nat) (self : Pretokenizer) : Prop :=
  self.pos ≤ curs ∧
  match state with
  | .NormalTok => self.pos < curs ∧ (∀ c, input[self.pos]? = some c → c ≠ '"') ∧
      ∀ i c, self.pos < i → i < curs → input[i]? = some c → ¬ isSep c
  | .QuotedTok => self.pos < curs ∧ input[self.pos]? = some '"'
  | .EscapeChar => self.pos < curs ∧ input[self.pos]? = some '"'
  | _ => True

/-- Postcondition of one run of the scanning loop started at cursor `curs`
with scanner `self`: on the end-of-input result the resume position is
synced to the end of input; on an emission the pretoken is the slice from
some start `st` (at or after the old resume position) to the new resume
position, its offset is the byte offset of `st`, its line is the scanner's
line at emission, and it either starts with a quote or holds no separator
after its first character. -/
def Post (input : List Char) (self : Pretokenizer) (curs : Nat) :
    Option Pretoken × Pretokenizer → Prop
  | (none, t) => t.pos = input.length
  | (some tok, t) => ∃ st, self.pos ≤ st ∧ st < t.pos ∧ curs ≤ t.pos ∧
      t.pos ≤ input.length ∧
      tok.s = slice input st t.pos ∧ tok.offset = byteOff input st ∧ tok.line = t.line ∧
      (input[st]? = some '"' ∨
        ((∀ c, input[st]? = some c → c ≠ '"') ∧
         ∀ i c, st < i → i < t.pos → input[i]? = some c → ¬ isSep c))

theorem Post_mono (input : List Char) {self self' : Pretokenizer} {curs curs' : Nat}
    {r : Option Pretoken × Pretokenizer}
    (h : Post input self' curs' r) (hpos : self.pos ≤ self'.pos) (hcurs : curs ≤ curs') :
    Post input self curs r := by
  obtain ⟨r1, r2⟩ := r
  cases r1 with
  | none => exact h
  | some tok =>
    obtain ⟨st, h1, h2, h3, h4, h5, h6, h7, h8⟩ := h
    exact ⟨st, le_trans hpos h1, h2, le_trans hcurs h3, h4, h5, h6, h7, h8⟩

theorem make_pretok_post (input : List Char) (self : Pretokenizer) {e curs : Nat}
    (hpos : self.pos < e) (hlen : e ≤ input.length) (hcurs : curs ≤ e)
    (hcontent : input[self.pos]? = some '"' ∨
      ((∀ c, input[self.pos]? = some c → c ≠ '"') ∧
       ∀ i c, self.pos < i → i < e → input[i]? = some c → ¬ isSep c)) :
    Post input self curs (make_pretok input self e) := by
  unfold make_pretok Pretoken.new sliceBetween
  rw [if_neg (by omega), if_pos ⟨by omega, hlen⟩]
  exact ⟨self.pos, le_refl _, hpos, hcurs, hlen, rfl, rfl, rfl, hcontent⟩

set_option maxHeartbeats 2000000 in
theorem loop_spec (input : List Char) : ∀ N state curs self,
    4 * (input.length - curs) + rank state ≤ N →
    curs ≤ input.length → Inv input state curs self →
    Post input self curs (loop input self state curs) := by
  intro N
  induction N with
  | zero => intro state curs self hN hc hinv; cases state <;> simp [rank] at hN
  | succ N ih =>
    intro state curs self hN hc hinv
    rw [loop.eq_def]
    rcases Nat.lt_or_ge curs input.length with hlt | hge
    · rw [dif_pos hlt]
      obtain ⟨hpc, hinv2⟩ := hinv
      have hsome : input[curs]? = some input[curs] := List.getElem?_eq_getElem hlt
      cases state with
      | WS =>
        dsimp only
        by_cases h1 : input[curs] = '\n'
        · rw [if_pos h1]
          exact Post_mono input (ih .WS (curs + 1) ⟨self.pos, self.line + 1⟩
            (by simp only [rank] at hN ⊢; omega) (by omega)
            ⟨Nat.le_succ_of_le hpc, trivial⟩) (le_refl _) (Nat.le_succ curs)
        · rw [if_neg h1]
          by_cases h2 : input[curs] = ' ' ∨ input[curs] = '\t'
          · rw [if_pos h2]
            exact Post_mono input (ih .WS (curs + 1) self
              (by simp only [rank] at hN ⊢; omega) (by omega)
              ⟨Nat.le_succ_of_le hpc, trivial⟩) (le_refl _) (Nat.le_succ curs)
          · rw [if_neg h2]
            by_cases h3 : input[curs] = '/'
            · rw [if_pos h3]
              exact Post_mono input (ih .MaybeComment (curs + 1) self
                (by simp only [rank] at hN ⊢; omega) (by omega)
                ⟨Nat.le_succ_of_le hpc, trivial⟩) (le_refl _) (Nat.le_succ curs)
            · rw [if_neg h3]
              exact ih .StartTok curs self
                (by simp only [rank] at hN ⊢; omega) hc ⟨hpc, trivial⟩
      | MaybeComment =>
        dsimp only
        by_cases h1 : input[curs] = '/'
        · rw [if_pos h1]
          exact Post_mono input (ih .LineComment (curs + 1) self
            (by simp only [rank] at hN ⊢; omega) (by omega)
            ⟨Nat.le_succ_of_le hpc, trivial⟩) (le_refl _) (Nat.le_succ curs)
        · rw [if_neg h1]
          by_cases h2 : input[curs] = '*'
          · rw [if_pos h2]
            exact Post_mono input (ih .BlockComment (curs + 1) self
              (by simp only [rank] at hN ⊢; omega) (by omega)
              ⟨Nat.le_succ_of_le hpc, trivial⟩) (le_refl _) (Nat.le_succ curs)
          · rw [if_neg h2]
            exact ih .StartTok curs self
              (by simp only [rank] at hN ⊢; omega) hc ⟨hpc, trivial⟩
      | LineComment =>
        dsimp only
        by_cases h1 : input[curs] = '\n'
        · rw [if_pos h1]
          exact ih .WS curs self
            (by simp only [rank] at hN ⊢; omega) hc ⟨hpc, trivial⟩
        · rw [if_neg h1]
          exact Post_mono input (ih .LineComment (curs + 1) self
            (by simp only [rank] at hN ⊢; omega) (by omega)
            ⟨Nat.le_succ_of_le hpc, trivial⟩) (le_refl _) (Nat.le_succ curs)
      | BlockComment =>
        dsimp only
        by_cases h1 : input[curs] = '*'
        · rw [if_pos h1]
          exact Post_mono input (ih .MaybeBlockCommentDone (curs + 1) self
            (by simp only [rank] at hN ⊢; omega) (by omega)
            ⟨Nat.le_succ_of_le hpc, trivial⟩) (le_refl _) (Nat.le_succ curs)
        · rw [if_neg h1]
          by_cases h2 : input[curs] = '\n'
          · rw [if_pos h2]
            exact Post_mono input (ih .BlockComment (curs + 1) ⟨self.pos, self.line + 1⟩
              (by simp only [rank] at hN ⊢; omega) (by omega)
              ⟨Nat.le_succ_of_le hpc, trivial⟩) (le_refl _) (Nat.le_succ curs)
          · rw [if_neg h2]
            exact Post_mono input (ih .BlockComment (curs + 1) self
              (by simp only [rank] at hN ⊢; omega) (by omega)
              ⟨Nat.le_succ_of_le hpc, trivial⟩) (le_refl _) (Nat.le_succ curs)
      | MaybeBlockCommentDone =>
        dsimp only
        by_cases h1 : input[curs] = '/'
        · rw [if_pos h1]
          exact Post_mono input (ih .WS (curs + 1) self
            (by simp only [rank] at hN ⊢; omega) (by omega)
            ⟨Nat.le_succ_of_le hpc, trivial⟩) (le_refl _) (Nat.le_succ curs)
        · rw [if_neg h1]
          by_cases h2 : input[curs] = '\n'
          · rw [if_pos h2]
            exact Post_mono input (ih .BlockComment (curs + 1) ⟨self.pos, self.line + 1⟩
              (by simp only [rank] at hN ⊢; omega) (by omega)
              ⟨Nat.le_succ_of_le hpc, trivial⟩) (le_refl _) (Nat.le_succ curs)
          · rw [if_neg h2]
            exact Post_mono input (ih .BlockComment (curs + 1) self
              (by simp only [rank] at hN ⊢; omega) (by omega)
              ⟨Nat.le_succ_of_le hpc, trivial⟩) (le_refl _) (Nat.le_succ curs)
      | StartTok =>
        dsimp only
        by_cases h1 : input[curs] = '"'
        · rw [if_pos h1]
          refine Post_mono input (ih .QuotedTok (curs + 1) ⟨curs, self.line⟩
            (by simp only [rank] at hN ⊢; omega) (by omega)
            ⟨Nat.le_succ curs, Nat.lt_succ_self curs, ?_⟩) hpc (Nat.le_succ curs)
          rw [hsome, h1]
        · rw [if_neg h1]
          refine Post_mono input (ih .NormalTok (curs + 1) ⟨curs, self.line⟩
            (by simp only [rank] at hN ⊢; omega) (by omega)
            ⟨Nat.le_succ curs, Nat.lt_succ_self curs, ?_, ?_⟩) hpc (Nat.le_succ curs)
          · intro c hcp
            rw [hsome] at hcp
            injection hcp with hcc
            exact fun hcon => h1 (hcc.trans hcon)
          · intro i c hi1 hi2 hcp
            change curs < i at hi1
            exact absurd hi2 (by omega)
      | NormalTok =>
        obtain ⟨hlt0, hq0, hint⟩ := hinv2
        dsimp only
        by_cases h1 : input[curs] = ' ' ∨ input[curs] = '\t'
        · rw [if_pos h1]
          exact make_pretok_post input self hlt0 (le_of_lt hlt) (le_refl curs)
            (Or.inr ⟨hq0, hint⟩)
        · rw [if_neg h1]
          by_cases h2 : input[curs] = '\n'
          · rw [if_pos h2]
            exact make_pretok_post input self hlt0 (le_of_lt hlt) (le_refl curs)
              (Or.inr ⟨hq0, hint⟩)
          · rw [if_neg h2]
            by_cases h3 : input[curs] = '"'
            · rw [if_pos h3]
              exact make_pretok_post input self hlt0 (le_of_lt hlt) (le_refl curs)
                (Or.inr ⟨hq0, hint⟩)
            · rw [if_neg h3]
              by_cases h4 : input[curs] = '/'
              · rw [if_pos h4]
                by_cases hlt2 : curs + 1 < input.length
                · rw [dif_pos hlt2]
                  by_cases h5 : input[curs + 1] = '/' ∨ input[curs + 1] = '*'
                  · rw [if_pos h5]
                    exact make_pretok_post input self hlt0 (le_of_lt hlt) (le_refl curs)
                      (Or.inr ⟨hq0, hint⟩)
                  · rw [if_neg h5]
                    refine Post_mono input (ih .NormalTok (curs + 1) self
                      (by simp only [rank] at hN ⊢; omega) (by omega)
                      ⟨Nat.le_succ_of_le hpc, Nat.lt_succ_of_lt hlt0, hq0, ?_⟩)
                      (le_refl _) (Nat.le_succ curs)
                    intro i c hi1 hi2 hcp
                    rcases Nat.lt_or_ge i curs with hio | hio
                    · exact hint i c hi1 hio hcp
                    · have hieq : i = curs := by omega
                      subst hieq
                      rw [hsome] at hcp
                      injection hcp with hcc
                      rw [← hcc, h4]
                      simp [isSep]
                · rw [dif_neg hlt2]
                  refine make_pretok_post input self (by omega) (by omega)
                    (Nat.le_succ curs) (Or.inr ⟨hq0, ?_⟩)
                  intro i c hi1 hi2 hcp
                  rcases Nat.lt_or_ge i curs with hio | hio
                  · exact hint i c hi1 hio hcp
                  · have hieq : i = curs := by omega
                    subst hieq
                    rw [hsome] at hcp
                    injection hcp with hcc
                    rw [← hcc, h4]
                    simp [isSep]
              · rw [if_neg h4]
                refine Post_mono input (ih .NormalTok (curs + 1) self
                  (by simp only [rank] at hN ⊢; omega) (by omega)
                  ⟨Nat.le_succ_of_le hpc, Nat.lt_succ_of_lt hlt0, hq0, ?_⟩)
                  (le_refl _) (Nat.le_succ curs)
                intro i c hi1 hi2 hcp
                rcases Nat.lt_or_ge i curs with hio | hio
                · exact hint i c hi1 hio hcp
                · have hieq : i = curs := by omega
                  subst hieq
                  rw [hsome] at hcp
                  injection hcp with hcc
                  rw [← hcc]
                  intro hsep
                  unfold isSep at hsep
                  rcases hsep with h | h | h | h
                  · exact h1 (Or.inl h)
                  · exact h1 (Or.inr h)
                  · exact h2 h
                  · exact h3 h
      | QuotedTok =>
        obtain ⟨hlt0, hq0⟩ := hinv2
        dsimp only
        by_cases h1 : input[curs] = '\n'
        · rw [if_pos h1]
          exact Post_mono input (ih .QuotedTok (curs + 1) ⟨self.pos, self.line + 1⟩
            (by simp only [rank] at hN ⊢; omega) (by omega)
            ⟨Nat.le_succ_of_le hpc, Nat.lt_succ_of_lt hlt0, hq0⟩) (le_refl _) (Nat.le_succ curs)
        · rw [if_neg h1]
          by_cases h2 : input[curs] = '"'
          · rw [if_pos h2]
            exact make_pretok_post input self (by omega) (by omega)
              (Nat.le_succ curs) (Or.inl hq0)
          · rw [if_neg h2]
            by_cases h3 : input[curs] = '\\'
            · rw [if_pos h3]
              exact Post_mono input (ih .EscapeChar (curs + 1) self
                (by simp only [rank] at hN ⊢; omega) (by omega)
                ⟨Nat.le_succ_of_le hpc, Nat.lt_succ_of_lt hlt0, hq0⟩) (le_refl _) (Nat.le_succ curs)
            · rw [if_neg h3]
              exact Post_mono input (ih .QuotedTok (curs + 1) self
                (by simp only [rank] at hN ⊢; omega) (by omega)
                ⟨Nat.le_succ_of_le hpc, Nat.lt_succ_of_lt hlt0, hq0⟩) (le_refl _) (Nat.le_succ curs)
      | EscapeChar =>
        obtain ⟨hlt0, hq0⟩ := hinv2
        dsimp only
        by_cases h1 : input[curs] = '\n'
        · rw [if_pos h1]
          exact Post_mono input (ih .QuotedTok (curs + 1) ⟨self.pos, self.line + 1⟩
            (by simp only [rank] at hN ⊢; omega) (by omega)
            ⟨Nat.le_succ_of_le hpc, Nat.lt_succ_of_lt hlt0, hq0⟩) (le_refl _) (Nat.le_succ curs)
        · rw [if_neg h1]
          exact Post_mono input (ih .QuotedTok (curs + 1) self
            (by simp only [rank] at hN ⊢; omega) (by omega)
            ⟨Nat.le_succ_of_le hpc, Nat.lt_succ_of_lt hlt0, hq0⟩) (le_refl _) (Nat.le_succ curs)
    · rw [dif_neg (by omega)]
      obtain ⟨hpc, hinv2⟩ := hinv
      unfold eof_step
      cases state with
      | NormalTok =>
        obtain ⟨hlt0, hq0, hint⟩ := hinv2
        dsimp only
        exact make_pretok_post input self hlt0 hc (le_refl curs) (Or.inr ⟨hq0, hint⟩)
      | QuotedTok =>
        obtain ⟨hlt0, hq0⟩ := hinv2
        dsimp only
        exact make_pretok_post input self hlt0 hc (le_refl curs) (Or.inl hq0)
      | EscapeChar =>
        obtain ⟨hlt0, hq0⟩ := hinv2
        dsimp only
        exact make_pretok_post input self hlt0 hc (le_refl curs) (Or.inl hq0)
      | WS => exact (by omega : curs = input.length)
      | MaybeComment => exact (by omega : curs = input.length)
      | LineComment => exact (by omega : curs = input.length)
      | BlockComment => exact (by omega : curs = input.length)
      | MaybeBlockCommentDone => exact (by omega : curs = input.length)
      | StartTok => exact (by omega : curs = input.length)

theorem next_post (input : List Char) (self : Pretokenizer) (h : self.pos ≤ input.length) :
    Post input self self.pos (next input self) :=
  loop_spec input (4 * (input.length - self.pos) + rank .WS) .WS self.pos self
    (le_refl _) h ⟨le_refl _, trivial⟩

theorem next_none_of_ge (input : List Char) (self : Pretokenizer)
    (h : input.length ≤ self.pos) :
    next input self = (none, ⟨self.pos, self.line⟩) := by
  unfold next
  rw [loop.eq_def, dif_neg (by omega)]
  rfl

theorem next_some_progress (input : List Char) {self t : Pretokenizer} {tok : Pretoken}
    (h : next input self = (some tok, t)) :
    self.pos < t.pos ∧ t.pos ≤ input.length := by
  rcases le_or_lt self.pos input.length with hp | hp
  · have hpost := next_post input self hp
    rw [h] at hpost
    obtain ⟨st, h1, h2, h3, h4, _⟩ := hpost
    exact ⟨Nat.lt_of_le_of_lt h1 h2, h4⟩
  · rw [next_none_of_ge input self (by omega)] at h
    simp at h

/-- The full pretoken sequence obtained by iterating `next` from scanner
state `t` (the lazy iterator, forced into a list). -/
def tokens_go (input : List Char) (t : Pretokenizer) : List Pretoken :=
  match h : next input t with
  | (none, _) => []
  | (some p, t2) => p :: tokens_go input t2
termination_by input.length - t.pos
decreasing_by
  have := next_some_progress input h
  omega

/-- All pretokens of an input, iterating from a fresh scanner. -/
def tokens (input : List Char) : List Pretoken := tokens_go input Pretokenizer.new

/-- `n + 1` successive calls of `next` from scanner state `t`, returning the
result of the last call. -/
def advanceN (input : List Char) (t : Pretokenizer) : Nat → Option Pretoken × Pretokenizer
  | 0 => next input t
  | n + 1 => advanceN input (next input t).2 n

theorem tokens_go_eq_cons {input : List Char} {tok : Pretoken} {t t2 : Pretokenizer}
    (h : next input t = (some tok, t2)) :
    tokens_go input t = tok :: tokens_go input t2 := by
  rw [tokens_go.eq_def]
  split
  · next x heq => rw [h] at heq; simp at heq
  · next p t3 heq =>
      rw [h] at heq
      injection heq with h1 h2
      injection h1 with h1
      subst h1
      subst h2
      rfl

theorem tokens_go_eq_nil {input : List Char} {t x : Pretokenizer}
    (h : next input t = (none, x)) :
    tokens_go input t = [] := by
  rw [tokens_go.eq_def]
  split
  · rfl
  · next p t3 heq => rw [h] at heq; simp at heq

example : tokens ['x', ' ', 'y'] = [⟨['x'], 1, 0⟩, ⟨['y'], 1, 2⟩] := by
  rw [tokens, Pretokenizer.new,
    tokens_go_eq_cons (show next ['x', ' ', 'y'] ⟨0, 1⟩ = (some ⟨['x'], 1, 0⟩, ⟨1, 1⟩) by
      simp [next, loop, eof_step, make_pretok, Pretoken.new, sliceBetween, slice,
        byteOff, utf8Len, encodeChar]),
    tokens_go_eq_cons (show next ['x', ' ', 'y'] ⟨1, 1⟩ = (some ⟨['y'], 1, 2⟩, ⟨3, 1⟩) by
      simp [next, loop, eof_step, make_pretok, Pretoken.new, sliceBetween, slice,
        byteOff, utf8Len, encodeChar]),
    tokens_go_eq_nil (show next ['x', ' ', 'y'] ⟨3, 1⟩ = (none, ⟨3, 1⟩) by
      simp [next, loop, eof_step, make_pretok, Pretoken.new, sliceBetween, slice,
        byteOff, utf8Len, encodeChar])]

theorem encodeChar_length_pos (c : Char) : 0 < (encodeChar c).length := by
  unfold encodeChar
  dsimp only
  split_ifs <;> simp

theorem utf8Len_append (a b : List Char) : utf8Len (a ++ b) = utf8Len a + utf8Len b := by
  unfold utf8Len
  rw [List.map_append, List.sum_append]

theorem toBytes_append (a b : List Char) : toBytes (a ++ b) = toBytes a ++ toBytes b := by
  unfold toBytes
  rw [List.map_append, List.flatten_append]

theorem toBytes_length (s : List Char) : (toBytes s).length = utf8Len s := by
  unfold toBytes utf8Len
  rw [List.length_flatten, List.map_map]
  rfl

theorem utf8Len_pos {l : List Char} (h : l ≠ []) : 0 < utf8Len l := by
  cases l with
  | nil => exact absurd rfl h
  | cons a l =>
    unfold utf8Len
    rw [List.map_cons, List.sum_cons]
    have := encodeChar_length_pos a
    omega

theorem take_eq_take_append_slice (input : List Char) {s e : Nat} (h : s ≤ e) :
    input.take e = input.take s ++ slice input s e := by
  unfold slice
  conv_lhs => rw [← List.take_append_drop s (input.take e)]
  congr 1
  rw [List.take_take, Nat.min_eq_left h]

theorem byteOff_add_slice (input : List Char) {s e : Nat} (h : s ≤ e) :
    byteOff input e = byteOff input s + utf8Len (slice input s e) := by
  unfold byteOff
  rw [take_eq_take_append_slice input h, utf8Len_append]

theorem byteOff_mono (input : List Char) {s e : Nat} (h : s ≤ e) :
    byteOff input s ≤ byteOff input e := by
  rw [byteOff_add_slice input h]
  omega

theorem slice_length (input : List Char) {s e : Nat} (he : e ≤ input.length) :
    (slice input s e).length = e - s := by
  unfold slice
  rw [List.length_drop, List.length_take]
  omega

theorem slice_ne_nil (input : List Char) {s e : Nat} (hs : s < e) (he : e ≤ input.length) :
    slice input s e ≠ [] := by
  intro hnil
  have := slice_length input (s := s) he
  rw [hnil] at this
  simp at this
  omega

theorem byteOff_lt (input : List Char) {s e : Nat} (hs : s < e) (he : e ≤ input.length) :
    byteOff input s < byteOff input e := by
  rw [byteOff_add_slice input (le_of_lt hs)]
  have := utf8Len_pos (slice_ne_nil input hs he)
  omega

theorem byteOff_le_length (input : List Char) (e : Nat) :
    byteOff input e ≤ (toBytes input).length := by
  rw [toBytes_length]
  unfold byteOff
  conv_rhs => rw [← List.take_append_drop e input]
  rw [utf8Len_append]
  omega

theorem toBytes_slice (input : List Char) {s e : Nat} (hs : s ≤ e) (he : e ≤ input.length) :
    toBytes (slice input s e) =
      ((toBytes input).take (byteOff input e)).drop (byteOff input s) := by
  have hsplit : toBytes input = toBytes (input.take e) ++ toBytes (input.drop e) := by
    rw [← toBytes_append, List.take_append_drop]
  have h1 : (toBytes input).take (byteOff input e) = toBytes (input.take e) := by
    rw [hsplit]
    exact List.take_left' (by rw [toBytes_length]; rfl)
  rw [h1, take_eq_take_append_slice input hs, toBytes_append]
  exact (List.drop_left' (by rw [toBytes_length]; rfl)).symm

theorem drop_take_drop (l : List Nat) {a b : Nat} (hab : a ≤ b) (hb : b ≤ l.length) :
    (l.take b).drop a ++ l.drop b = l.drop a := by
  conv_rhs => rw [← List.take_append_drop b l, List.drop_append_eq_append_drop]
  have h0 : a - (l.take b).length = 0 := by
    rw [List.length_take]
    omega
  rw [h0, List.drop_zero]

theorem slice_getElem? (input : List Char) {s e k : Nat} (he : e ≤ input.length)
    (hk : k < e - s) : (slice input s e)[k]? = input[s + k]? := by
  unfold slice
  rw [List.getElem?_drop, List.getElem?_take, if_pos (by omega : s + k < e)]

theorem countNL_take_succ (input : List Char) {i : Nat} (h : i < input.length) :
    countNL (input.take (i + 1)) =
      countNL (input.take i) + (if input[i] = '\n' then 1 else 0) := by
  unfold countNL
  rw [List.take_succ, List.count_append]
  congr 1
  rw [List.getElem?_eq_getElem h]
  by_cases hc : input[i] = '\n'
  · rw [if_pos hc, hc]
    simp
  · rw [if_neg hc]
    simp [Option.toList, List.count_cons, hc]

theorem make_pretok_snd (input : List Char) (self : Pretokenizer) (e : Nat) :
    (make_pretok input self e).2.pos = e ∧
      (make_pretok input self e).2.line = self.line := by
  unfold make_pretok
  split_ifs with h
  · exact ⟨h.symm, rfl⟩
  · exact ⟨rfl, rfl⟩

/-- `TokOk input st e tok`: `tok` is the pretoken of code-point span
`[st, e)` of the input: its text is that slice, its offset the byte offset
of `st`, and it either starts with a quote or holds no separator after its
first character. -/
def TokOk (input : List Char) (st e : Nat) (tok : Pretoken) : Prop :=
  st < e ∧ e ≤ input.length ∧ tok.s = slice input st e ∧ tok.offset = byteOff input st ∧
  (input[st]? = some '"' ∨
    ((∀ c, input[st]? = some c → c ≠ '"') ∧
     ∀ i c, st < i → i < e → input[i]? = some c → ¬ isSep c))

/-- The pretokens of a list occupy consecutive disjoint code-point spans,
in order, all at or after position `p`. -/
def SpanChain (input : List Char) : Nat → List Pretoken → Prop
  | _, [] => True
  | p, tok :: ts => ∃ st e, p ≤ st ∧ TokOk input st e tok ∧ SpanChain input e ts

theorem tokens_go_spans (input : List Char) :
    ∀ n t, input.length - Pretokenizer.pos t ≤ n →
      SpanChain input t.pos (tokens_go input t) := by
  intro n
  induction n with
  | zero =>
    intro t hn
    rw [tokens_go_eq_nil (next_none_of_ge input t (by omega))]
    trivial
  | succ n ih =>
    intro t hn
    cases hnext : next input t with
    | mk r t2 =>
      cases r with
      | none =>
        rw [tokens_go_eq_nil hnext]
        trivial
      | some tok =>
        rw [tokens_go_eq_cons hnext]
        have hp : t.pos ≤ input.length := by
          rcases le_or_lt t.pos input.length with h | h
          · exact h
          · rw [next_none_of_ge input t (le_of_lt h)] at hnext
            simp at hnext
        have hpost := next_post input t hp
        rw [hnext] at hpost
        obtain ⟨st, h1, h2, h3, h4, h5, h6, h7, h8⟩ := hpost
        exact ⟨st, t2.pos, h1, ⟨h2, h4, h5, h6, h8⟩, ih t2 (by omega)⟩

theorem tokens_spans (input : List Char) : SpanChain input 0 (tokens input) :=
  tokens_go_spans input input.length Pretokenizer.new (Nat.sub_le input.length _)

theorem spanchain_lower (input : List Char) :
    ∀ (p : Nat) (ts : List Pretoken), SpanChain input p ts →
      ∀ tok ∈ ts, byteOff input p ≤ tok.offset := by
  intro p ts
  induction ts generalizing p with
  | nil => intro h tok htok; simp at htok
  | cons a ts ih =>
    intro h tok htok
    obtain ⟨st, e, hp, hok, hrest⟩ := h
    obtain ⟨hlt, hle, hs, hoff, _⟩ := hok
    rcases List.mem_cons.mp htok with heq | hmem
    · subst heq
      rw [hoff]
      exact byteOff_mono input hp
    · have h2 := ih e hrest tok hmem
      have h3 : byteOff input p ≤ byteOff input e :=
        byteOff_mono input (le_trans hp (le_of_lt hlt))
      omega

theorem spanchain_pairwise (input : List Char) :
    ∀ (p : Nat) (ts : List Pretoken), SpanChain input p ts →
      List.Pairwise (fun a b => a.offset + utf8Len a.s ≤ b.offset) ts := by
  intro p ts
  induction ts generalizing p with
  | nil => intro h; exact List.Pairwise.nil
  | cons a ts ih =>
    intro h
    obtain ⟨st, e, hp, hok, hrest⟩ := h
    rw [List.pairwise_cons]
    constructor
    · intro b hb
      have hlow := spanchain_lower input e ts hrest b hb
      obtain ⟨hlt, hle, hs, hoff, _⟩ := hok
      rw [hoff, hs, ← byteOff_add_slice input (le_of_lt hlt)]
      exact hlow
    · exact ih e hrest

theorem spanchain_pairwise_lt (input : List Char) :
    ∀ (p : Nat) (ts : List Pretoken), SpanChain input p ts →
      List.Pairwise (fun a b => a.offset < b.offset) ts := by
  intro p ts
  induction ts generalizing p with
  | nil => intro h; exact List.Pairwise.nil
  | cons a ts ih =>
    intro h
    obtain ⟨st, e, hp, hok, hrest⟩ := h
    rw [List.pairwise_cons]
    constructor
    · intro b hb
      have hlow := spanchain_lower input e ts hrest b hb
      obtain ⟨hlt, hle, hs, hoff, _⟩ := hok
      rw [hoff]
      exact Nat.lt_of_lt_of_le (byteOff_lt input hlt hle) hlow
    · exact ih e hrest

theorem spanchain_mem (input : List Char) :
    ∀ (p : Nat) (ts : List Pretoken), SpanChain input p ts →
      ∀ tok ∈ ts, ∃ st e, TokOk input st e tok := by
  intro p ts
  induction ts generalizing p with
  | nil => intro h tok htok; simp at htok
  | cons a ts ih =>
    intro h tok htok
    obtain ⟨st, e, hp, hok, hrest⟩ := h
    rcases List.mem_cons.mp htok with heq | hmem
    · subst heq
      exact ⟨st, e, hok⟩
    · exact ih e hrest tok hmem

theorem spanchain_substring (input : List Char) :
    ∀ (p : Nat) (ts : List Pretoken), SpanChain input p ts →
      ∀ tok ∈ ts, toBytes tok.s =
        ((toBytes input).take (tok.offset + utf8Len tok.s)).drop tok.offset := by
  intro p ts
  induction ts generalizing p with
  | nil => intro h tok htok; simp at htok
  | cons a ts ih =>
    intro h tok htok
    obtain ⟨st, e, hp, hok, hrest⟩ := h
    rcases List.mem_cons.mp htok with heq | hmem
    · subst heq
      obtain ⟨hlt, hle, hs, hoff, _⟩ := hok
      rw [hs, hoff, ← byteOff_add_slice input (le_of_lt hlt)]
      exact toBytes_slice input (le_of_lt hlt) hle
    · exact ih e hrest tok hmem

/-- Reassembly of the input bytes from the pretokens by offset arithmetic:
`pos` is the byte position reached so far; each step copies the gap bytes
from `pos` up to the next pretoken's offset, then the pretoken's own bytes,
and the final step copies the trailing gap. -/
def reconstruct (bytes : List Nat) : Nat → List Pretoken → List Nat
  | pos, [] => bytes.drop pos
  | pos, tok :: ts =>
      (bytes.take tok.offset).drop pos ++
        (toBytes tok.s ++ reconstruct bytes (tok.offset + utf8Len tok.s) ts)

theorem spanchain_reconstruct (input : List Char) :
    ∀ (p : Nat) (ts : List Pretoken), SpanChain input p ts →
      reconstruct (toBytes input) (byteOff input p) ts =
        (toBytes input).drop (byteOff input p) := by
  intro p ts
  induction ts generalizing p with
  | nil => intro h; rfl
  | cons a ts ih =>
    intro h
    obtain ⟨st, e, hp, hok, hrest⟩ := h
    obtain ⟨hlt, hle, hs, hoff, _⟩ := hok
    simp only [reconstruct]
    rw [hoff, hs, ← byteOff_add_slice input (le_of_lt hlt), ih e hrest,
      toBytes_slice input (le_of_lt hlt) hle,
      drop_take_drop _ (byteOff_mono input (le_of_lt hlt)) (byteOff_le_length input e)]
    exact drop_take_drop _ (byteOff_mono input hp) (byteOff_le_length input st)

set_option maxHeartbeats 2000000 in
theorem loop_line (input : List Char) (hNS : ¬ '/' ∈ input) :
    ∀ N state curs self,
      4 * (input.length - curs) + rank state ≤ N →
      curs ≤ input.length →
      state ≠ .MaybeComment →
      (state = .StartTok → ∀ ch, input[curs]? = some ch → ch ≠ '\n') →
      self.line = 1 + countNL (input.take curs) →
      (loop input self state curs).2.line =
        1 + countNL (input.take ((loop input self state curs).2.pos)) := by
  intro N
  induction N with
  | zero => intro state curs self hN _ _ _ _; cases state <;> simp [rank] at hN
  | succ N ih =>
    intro state curs self hN hc hMC hST hline
    rw [loop.eq_def]
    rcases Nat.lt_or_ge curs input.length with hlt | hge
    · rw [dif_pos hlt]
      have hsome : input[curs]? = some input[curs] := List.getElem?_eq_getElem hlt
      have hmem : input[curs] ∈ input := List.getElem_mem hlt
      cases state with
      | WS =>
        dsimp only
        by_cases h1 : input[curs] = '\n'
        · rw [if_pos h1]
          exact ih .WS (curs + 1) ⟨self.pos, self.line + 1⟩
            (by simp only [rank] at hN ⊢; omega) (by omega)
            (by simp) (by simp)
            (by change self.line + 1 = _
                rw [countNL_take_succ input hlt, if_pos h1]; omega)
        · rw [if_neg h1]
          by_cases h2 : input[curs] = ' ' ∨ input[curs] = '\t'
          · rw [if_pos h2]
            exact ih .WS (curs + 1) self
              (by simp only [rank] at hN ⊢; omega) (by omega)
              (by simp) (by simp)
              (by rw [countNL_take_succ input hlt, if_neg h1]; omega)
          · rw [if_neg h2]
            by_cases h3 : input[curs] = '/'
            · rw [h3] at hmem
              exact absurd hmem hNS
            · rw [if_neg h3]
              refine ih .StartTok curs self
                (by simp only [rank] at hN ⊢; omega) hc (by simp) ?_ hline
              intro _ ch hcp
              rw [hsome] at hcp
              injection hcp with hcc
              exact fun hcon => h1 (hcc.trans hcon)
      | MaybeComment => exact absurd rfl hMC
      | LineComment =>
        dsimp only
        by_cases h1 : input[curs] = '\n'
        · rw [if_pos h1]
          exact ih .WS curs self
            (by simp only [rank] at hN ⊢; omega) hc (by simp) (by simp) hline
        · rw [if_neg h1]
          exact ih .LineComment (curs + 1) self
            (by simp only [rank] at hN ⊢; omega) (by omega)
            (by simp) (by simp)
            (by rw [countNL_take_succ input hlt, if_neg h1]; omega)
      | BlockComment =>
        dsimp only
        by_cases h1 : input[curs] = '*'
        · rw [if_pos h1]
          exact ih .MaybeBlockCommentDone (curs + 1) self
            (by simp only [rank] at hN ⊢; omega) (by omega)
            (by simp) (by simp)
            (by rw [countNL_take_succ input hlt,
                  if_neg (by rw [h1]; decide)]; omega)
        · rw [if_neg h1]
          by_cases h2 : input[curs] = '\n'
          · rw [if_pos h2]
            exact ih .BlockComment (curs + 1) ⟨self.pos, self.line + 1⟩
              (by simp only [rank] at hN ⊢; omega) (by omega)
              (by simp) (by simp)
              (by change self.line + 1 = _
                  rw [countNL_take_succ input hlt, if_pos h2]; omega)
          · rw [if_neg h2]
            exact ih .BlockComment (curs + 1) self
              (by simp only [rank] at hN ⊢; omega) (by omega)
              (by simp) (by simp)
              (by rw [countNL_take_succ input hlt, if_neg h2]; omega)
      | MaybeBlockCommentDone =>
        dsimp only
        by_cases h1 : input[curs] = '/'
        · rw [h1] at hmem
          exact absurd hmem hNS
        · rw [if_neg h1]
          by_cases h2 : input[curs] = '\n'
          · rw [if_pos h2]
            exact ih .BlockComment (curs + 1) ⟨self.pos, self.line + 1⟩
              (by simp only [rank] at hN ⊢; omega) (by omega)
              (by simp) (by simp)
              (by change self.line + 1 = _
                  rw [countNL_take_succ input hlt, if_pos h2]; omega)
          · rw [if_neg h2]
            exact ih .BlockComment (curs + 1) self
              (by simp only [rank] at hN ⊢; omega) (by omega)
              (by simp) (by simp)
              (by rw [countNL_take_succ input hlt, if_neg h2]; omega)
      | StartTok =>
        dsimp only
        have hnotnl : input[curs] ≠ '\n' := hST rfl input[curs] hsome
        by_cases h1 : input[curs] = '"'
        · rw [if_pos h1]
          exact ih .QuotedTok (curs + 1) ⟨curs, self.line⟩
            (by simp only [rank] at hN ⊢; omega) (by omega)
            (by simp) (by simp)
            (by change self.line = _
                rw [countNL_take_succ input hlt, if_neg hnotnl]; omega)
        · rw [if_neg h1]
          exact ih .NormalTok (curs + 1) ⟨curs, self.line⟩
            (by simp only [rank] at hN ⊢; omega) (by omega)
            (by simp) (by simp)
            (by change self.line = _
                rw [countNL_take_succ input hlt, if_neg hnotnl]; omega)
      | NormalTok =>
        dsimp only
        by_cases h1 : input[curs] = ' ' ∨ input[curs] = '\t'
        · rw [if_pos h1]
          rw [(make_pretok_snd input self curs).1, (make_pretok_snd input self curs).2]
          exact hline
        · rw [if_neg h1]
          by_cases h2 : input[curs] = '\n'
          · rw [if_pos h2]
            rw [(make_pretok_snd input self curs).1, (make_pretok_snd input self curs).2]
            exact hline
          · rw [if_neg h2]
            by_cases h3 : input[curs] = '"'
            · rw [if_pos h3]
              rw [(make_pretok_snd input self curs).1, (make_pretok_snd input self curs).2]
              exact hline
            · rw [if_neg h3]
              by_cases h4 : input[curs] = '/'
              · rw [h4] at hmem
                exact absurd hmem hNS
              · rw [if_neg h4]
                exact ih .NormalTok (curs + 1) self
                  (by simp only [rank] at hN ⊢; omega) (by omega)
                  (by simp) (by simp)
                  (by rw [countNL_take_succ input hlt, if_neg h2]; omega)
      | QuotedTok =>
        dsimp only
        by_cases h1 : input[curs] = '\n'
        · rw [if_pos h1]
          exact ih .QuotedTok (curs + 1) ⟨self.pos, self.line + 1⟩
            (by simp only [rank] at hN ⊢; omega) (by omega)
            (by simp) (by simp)
            (by change self.line + 1 = _
                rw [countNL_take_succ input hlt, if_pos h1]; omega)
        · rw [if_neg h1]
          by_cases h2 : input[curs] = '"'
          · rw [if_pos h2]
            rw [(make_pretok_snd input self (curs + 1)).1,
              (make_pretok_snd input self (curs + 1)).2]
            rw [countNL_take_succ input hlt, if_neg h1]
            omega
          · rw [if_neg h2]
            by_cases h3 : input[curs] = '\\'
            · rw [if_pos h3]
              exact ih .EscapeChar (curs + 1) self
                (by simp only [rank] at hN ⊢; omega) (by omega)
                (by simp) (by simp)
                (by rw [countNL_take_succ input hlt, if_neg h1]; omega)
            · rw [if_neg h3]
              exact ih .QuotedTok (curs + 1) self
                (by simp only [rank] at hN ⊢; omega) (by omega)
                (by simp) (by simp)
                (by rw [countNL_take_succ input hlt, if_neg h1]; omega)
      | EscapeChar =>
        dsimp only
        by_cases h1 : input[curs] = '\n'
        · rw [if_pos h1]
          exact ih .QuotedTok (curs + 1) ⟨self.pos, self.line + 1⟩
            (by simp only [rank] at hN ⊢; omega) (by omega)
            (by simp) (by simp)
            (by change self.line + 1 = _
                rw [countNL_take_succ input hlt, if_pos h1]; omega)
        · rw [if_neg h1]
          exact ih .QuotedTok (curs + 1) self
            (by simp only [rank] at hN ⊢; omega) (by omega)
            (by simp) (by simp)
            (by rw [countNL_take_succ input hlt, if_neg h1]; omega)
    · rw [dif_neg (by omega)]
      unfold eof_step
      cases state with
      | NormalTok =>
        rw [(make_pretok_snd input self curs).1, (make_pretok_snd input self curs).2]
        exact hline
      | QuotedTok =>
        rw [(make_pretok_snd input self curs).1, (make_pretok_snd input self curs).2]
        exact hline
      | EscapeChar =>
        rw [(make_pretok_snd input self curs).1, (make_pretok_snd input self curs).2]
        exact hline
      | WS => exact hline
      | MaybeComment => exact hline
      | LineComment => exact hline
      | BlockComment => exact hline
      | MaybeBlockCommentDone => exact hline
      | StartTok => exact hline

theorem next_none_sync (input : List Char) {t t2 : Pretokenizer}
    (h : next input t = (none, t2)) : input.length ≤ t2.pos := by
  rcases le_or_lt t.pos input.length with hp | hp
  · have hpost := next_post input t hp
    rw [h] at hpost
    have h2 : t2.pos = input.length := hpost
    omega
  · rw [next_none_of_ge input t (le_of_lt hp)] at h
    injection h with h1 h2
    rw [← h2]
    exact le_of_lt hp

theorem next_none_final (input : List Char) {t t2 : Pretokenizer}
    (h : next input t = (none, t2)) : next input t2 = (none, t2) := by
  rw [next_none_of_ge input t2 (next_none_sync input h)]

theorem advanceN_none (input : List Char) :
    ∀ n t, input.length ≤ t.pos + n → (advanceN input t n).1 = none := by
  intro n
  induction n with
  | zero =>
    intro t h
    unfold advanceN
    rw [next_none_of_ge input t (by omega)]
  | succ n ih =>
    intro t h
    unfold advanceN
    cases hnext : next input t with
    | mk r t2 =>
      cases r with
      | none =>
        have := next_none_sync input hnext
        exact ih t2 (by omega)
      | some tok =>
        have := next_some_progress input hnext
        exact ih t2 (by omega)

theorem tokens_slash_x : tokens ['/', 'x'] = [⟨['x'], 1, 1⟩] := by
  rw [tokens, Pretokenizer.new,
    tokens_go_eq_cons (show next ['/', 'x'] ⟨0, 1⟩ = (some ⟨['x'], 1, 1⟩, ⟨2, 1⟩) by
      simp [next, loop, eof_step, make_pretok, Pretoken.new, sliceBetween, slice,
        byteOff, utf8Len, encodeChar]),
    tokens_go_eq_nil (show next ['/', 'x'] ⟨2, 1⟩ = (none, ⟨2, 1⟩) by
      simp [next, loop, eof_step, make_pretok, Pretoken.new, sliceBetween, slice,
        byteOff, utf8Len, encodeChar])]

theorem tokens_slash_space_x : tokens ['/', ' ', 'x'] = [⟨[' ', 'x'], 1, 1⟩] := by
  rw [tokens, Pretokenizer.new,
    tokens_go_eq_cons (show next ['/', ' ', 'x'] ⟨0, 1⟩ =
        (some ⟨[' ', 'x'], 1, 1⟩, ⟨3, 1⟩) by
      simp [next, loop, eof_step, make_pretok, Pretoken.new, sliceBetween, slice,
        byteOff, utf8Len, encodeChar]),
    tokens_go_eq_nil (show next ['/', ' ', 'x'] ⟨3, 1⟩ = (none, ⟨3, 1⟩) by
      simp [next, loop, eof_step, make_pretok, Pretoken.new, sliceBetween, slice,
        byteOff, utf8Len, encodeChar])]

theorem tokens_slash_newline_x : tokens ['/', '\n', 'x'] = [⟨['\n', 'x'], 1, 1⟩] := by
  rw [tokens, Pretokenizer.new,
    tokens_go_eq_cons (show next ['/', '\n', 'x'] ⟨0, 1⟩ =
        (some ⟨['\n', 'x'], 1, 1⟩, ⟨3, 1⟩) by
      simp [next, loop, eof_step, make_pretok, Pretoken.new, sliceBetween, slice,
        byteOff, utf8Len, encodeChar]),
    tokens_go_eq_nil (show next ['/', '\n', 'x'] ⟨3, 1⟩ = (none, ⟨3, 1⟩) by
      simp [next, loop, eof_step, make_pretok, Pretoken.new, sliceBetween, slice,
        byteOff, utf8Len, encodeChar])]

theorem tokens_quoted_newline : tokens ['"', ' ', 'x', '\n', 'x', '"'] =
    [⟨['"', ' ', 'x', '\n', 'x', '"'], 2, 0⟩] := by
  rw [tokens, Pretokenizer.new,
    tokens_go_eq_cons (show next ['"', ' ', 'x', '\n', 'x', '"'] ⟨0, 1⟩ =
        (some ⟨['"', ' ', 'x', '\n', 'x', '"'], 2, 0⟩, ⟨6, 2⟩) by
      simp [next, loop, eof_step, make_pretok, Pretoken.new, sliceBetween, slice,
        byteOff, utf8Len, encodeChar]),
    tokens_go_eq_nil (show next ['"', ' ', 'x', '\n', 'x', '"'] ⟨6, 2⟩ =
        (none, ⟨6, 2⟩) by
      simp [next, loop, eof_step, make_pretok, Pretoken.new, sliceBetween, slice,
        byteOff, utf8Len, encodeChar])]

theorem tokens_single_x : tokens ['x'] = [⟨['x'], 1, 0⟩] := by
  rw [tokens, Pretokenizer.new,
    tokens_go_eq_cons (show next ['x'] ⟨0, 1⟩ = (some ⟨['x'], 1, 0⟩, ⟨1, 1⟩) by
      simp [next, loop, eof_step, make_pretok, Pretoken.new, sliceBetween, slice,
        byteOff, utf8Len, encodeChar]),
    tokens_go_eq_nil (show next ['x'] ⟨1, 1⟩ = (none, ⟨1, 1⟩) by
      simp [next, loop, eof_step, make_pretok, Pretoken.new, sliceBetween, slice,
        byteOff, utf8Len, encodeChar])]

/-- Claim C1, counterexample: on input "/x" the '/' is not followed by '/'
or '*' and precedes a token, yet the emitted pretoken's text does not begin
with that '/' and its offset is not the byte offset of the '/' (0): the
scanner emits "x" at offset 1, silently dropping the '/'. -/
theorem C1_counterexample :
    tokens ['/', 'x'] = [⟨['x'], 1, 1⟩] ∧
    ∀ tok ∈ tokens ['/', 'x'],
      tok.s.head? ≠ some '/' ∧ tok.offset ≠ byteOff ['/', 'x'] 0 := by
  refine ⟨tokens_slash_x, ?_⟩
  rw [tokens_slash_x]
  intro tok htok
  rw [List.mem_singleton] at htok
  subst htok
  exact ⟨by decide, by decide⟩

/-- Claim C1 (amended): in state MaybeComment, a code point that is neither
'/' nor '*' sends the scanner to StartTok without consuming that code
point; but the already-consumed '/' does not become part of the upcoming
pretoken: StartTok sets the scanner's resume position — the start of the
upcoming pretoken — to the current cursor, which is already past the '/',
so the '/' is silently dropped. -/
theorem C1_thm : ∀ (input : List Char) (self : Pretokenizer) (curs : Nat) (c : Char),
    input[curs]? = some c → c ≠ '/' → c ≠ '*' →
    loop input self .MaybeComment curs = loop input self .StartTok curs ∧
    (c = '"' → loop input self .StartTok curs =
      loop input ⟨curs, self.line⟩ .QuotedTok (curs + 1)) ∧
    (c ≠ '"' → loop input self .StartTok curs =
      loop input ⟨curs, self.line⟩ .NormalTok (curs + 1)) := by
  intro input self curs c hcp hslash hstar
  have hlt : curs < input.length := by
    rcases Nat.lt_or_ge curs input.length with h | h
    · exact h
    · rw [List.getElem?_eq_none h] at hcp; cases hcp
  have hgc : input[curs] = c := by
    rw [List.getElem?_eq_getElem hlt] at hcp
    exact Option.some.inj hcp
  refine ⟨?_, ?_, ?_⟩
  · conv_lhs => rw [loop.eq_def]
    rw [dif_pos hlt]
    dsimp only
    rw [hgc, if_neg hslash, if_neg hstar]
  · intro hq
    conv_lhs => rw [loop.eq_def]
    rw [dif_pos hlt]
    dsimp only
    rw [hgc, if_pos hq]
  · intro hq
    conv_lhs => rw [loop.eq_def]
    rw [dif_pos hlt]
    dsimp only
    rw [hgc, if_neg hq]

/-- Claim C1, witness for the amended theorem at input "/x". -/
theorem C1_witness :
    loop ['/', 'x'] ⟨0, 1⟩ .MaybeComment 1 = loop ['/', 'x'] ⟨0, 1⟩ .StartTok 1 ∧
    loop ['/', 'x'] ⟨0, 1⟩ .StartTok 1 = loop ['/', 'x'] ⟨1, 1⟩ .NormalTok 2 :=
  ⟨(C1_thm ['/', 'x'] ⟨0, 1⟩ 1 'x' rfl (by decide) (by decide)).1,
   (C1_thm ['/', 'x'] ⟨0, 1⟩ 1 'x' rfl (by decide) (by decide)).2.2 (by decide)⟩

/-- Claim C2, counterexample: on input "/x" the byte '/' at offset 0 is in
no emitted pretoken, it is not a whitespace separator, and it does not
begin a comment (the following code point is neither '/' nor '*'), so a
non-whitespace, non-comment byte is silently skipped. -/
theorem C2_counterexample :
    tokens ['/', 'x'] = [⟨['x'], 1, 1⟩] ∧
    (∀ tok ∈ tokens ['/', 'x'], '/' ∉ tok.s) ∧
    ¬ isSep '/' ∧
    ['/', 'x'][1]? ≠ some '/' ∧ ['/', 'x'][1]? ≠ some '*' := by
  refine ⟨tokens_slash_x, ?_, by decide, by decide, by decide⟩
  rw [tokens_slash_x]
  intro tok htok
  rw [List.mem_singleton] at htok
  subst htok
  decide

/-- Claim C2 (amended): no two emitted pretokens overlap — for every pair
of pretokens in emission order, the byte span of the earlier one (from its
offset, for the byte length of its text) ends at or before the offset of
the later one.  However, a skipped byte need not lie in a whitespace or
comment span: a '/' consumed while probing for a comment that does not
materialize is silently dropped (input "/x" emits only "x" at offset 1). -/
theorem C2_thm :
    (∀ input : List Char,
      List.Pairwise (fun a b => a.offset + utf8Len a.s ≤ b.offset) (tokens input)) ∧
    tokens ['/', 'x'] = [⟨['x'], 1, 1⟩] :=
  ⟨fun input => spanchain_pairwise input 0 (tokens input) (tokens_spans input),
   tokens_slash_x⟩

/-- Claim C3, counterexample: on input "/", newline, "x" the emitted
pretoken is the two characters newline, 'x' with line = 1; but its last
character 'x' sits at input index 2 with one newline before it, so the last
(indeed the only non-trivial) line its characters span is line 2. -/
theorem C3_counterexample :
    tokens ['/', '\n', 'x'] = [⟨['\n', 'x'], 1, 1⟩] ∧
    1 + countNL (['/', '\n', 'x'].take 2) = 2 :=
  ⟨tokens_slash_newline_x, by decide⟩

/-- Claim C3 (amended): for inputs containing no '/' (which rules out the
dropped-'/' anomaly where a newline can be swallowed into a pretoken
without being counted), every call of `next` preserves the invariant that
the scanner's line counter is 1 plus the number of newline characters
before its resume position, and every emitted pretoken's line field equals
the scanner's line counter at the pretoken's end position — the 1-based
number of the last input line the pretoken reaches.  The concrete example,
a quoted string spanning a newline, yields one pretoken with line 2 and
offset 0. -/
theorem C3_thm :
    (∀ (input : List Char) (t : Pretokenizer), ¬ '/' ∈ input → t.pos ≤ input.length →
      t.line = 1 + countNL (input.take t.pos) →
      (next input t).2.line = 1 + countNL (input.take ((next input t).2.pos)) ∧
      ∀ tok t2, next input t = (some tok, t2) → tok.line = t2.line) ∧
    tokens ['"', ' ', 'x', '\n', 'x', '"'] = [⟨['"', ' ', 'x', '\n', 'x', '"'], 2, 0⟩] := by
  constructor
  · intro input t hNS hp hline
    constructor
    · exact loop_line input hNS (4 * (input.length - t.pos) + rank .WS) .WS t.pos t
        (le_refl _) hp (by decide) (fun h => absurd h (by decide)) hline
    · intro tok t2 hnext
      have hpost := next_post input t hp
      rw [hnext] at hpost
      obtain ⟨st, h1, h2, h3, h4, h5, h6, h7, h8⟩ := hpost
      exact h7
  · exact tokens_quoted_newline

/-- Claim C3, witness for the amended theorem at input "a". -/
theorem C3_witness :
    (next ['a'] ⟨0, 1⟩).2.line = 1 + countNL (['a'].take ((next ['a'] ⟨0, 1⟩).2.pos)) :=
  (C3_thm.1 ['a'] ⟨0, 1⟩ (by decide) (by decide) (by decide)).1

/-- Claim C4 (confirmed): in state NormalTok on reading '/', the scanner
looks ahead exactly one further code point without committing: if no code
point remains it emits the pretoken including the trailing '/' (span up to
`curs + 1`); if the following code point is '/' or '*' it emits the
pretoken ending just before the '/' (span up to `curs`); otherwise it
consumes the '/' and continues in NormalTok. -/
theorem C4_thm : ∀ (input : List Char) (self : Pretokenizer) (curs : Nat),
    input[curs]? = some '/' → self.pos < curs →
    (input[curs + 1]? = none →
      loop input self .NormalTok curs =
        (some ⟨slice input self.pos (curs + 1), self.line, byteOff input self.pos⟩,
          ⟨curs + 1, self.line⟩)) ∧
    (∀ c2, input[curs + 1]? = some c2 → (c2 = '/' ∨ c2 = '*') →
      loop input self .NormalTok curs =
        (some ⟨slice input self.pos curs, self.line, byteOff input self.pos⟩,
          ⟨curs, self.line⟩)) ∧
    (∀ c2, input[curs + 1]? = some c2 → c2 ≠ '/' → c2 ≠ '*' →
      loop input self .NormalTok curs = loop input self .NormalTok (curs + 1)) := by
  intro input self curs hcp hpos
  have hlt : curs < input.length := by
    rcases Nat.lt_or_ge curs input.length with h | h
    · exact h
    · rw [List.getElem?_eq_none h] at hcp; cases hcp
  have hgc : input[curs] = '/' := by
    rw [List.getElem?_eq_getElem hlt] at hcp
    exact Option.some.inj hcp
  refine ⟨?_, ?_, ?_⟩
  · intro heof
    have hge2 : input.length ≤ curs + 1 := by
      rcases Nat.lt_or_ge (curs + 1) input.length with h | h
      · rw [List.getElem?_eq_getElem h] at heof; cases heof
      · exact h
    conv_lhs => rw [loop.eq_def]
    rw [dif_pos hlt]
    dsimp only
    rw [hgc, if_neg (by decide), if_neg (by decide), if_neg (by decide), if_pos rfl,
      dif_neg (by omega)]
    unfold make_pretok Pretoken.new sliceBetween
    rw [if_neg (by omega), if_pos ⟨by omega, by omega⟩]
    rfl
  · intro c2 hcp2 hor
    have hlt2 : curs + 1 < input.length := by
      rcases Nat.lt_or_ge (curs + 1) input.length with h | h
      · exact h
      · rw [List.getElem?_eq_none h] at hcp2; cases hcp2
    have hgc2 : input[curs + 1] = c2 := by
      rw [List.getElem?_eq_getElem hlt2] at hcp2
      exact Option.some.inj hcp2
    conv_lhs => rw [loop.eq_def]
    rw [dif_pos hlt]
    dsimp only
    rw [hgc, if_neg (by decide), if_neg (by decide), if_neg (by decide), if_pos rfl,
      dif_pos hlt2, hgc2, if_pos hor]
    unfold make_pretok Pretoken.new sliceBetween
    rw [if_neg (by omega), if_pos ⟨by omega, by omega⟩]
    rfl
  · intro c2 hcp2 hs2 hst2
    have hlt2 : curs + 1 < input.length := by
      rcases Nat.lt_or_ge (curs + 1) input.length with h | h
      · exact h
      · rw [List.getElem?_eq_none h] at hcp2; cases hcp2
    have hgc2 : input[curs + 1] = c2 := by
      rw [List.getElem?_eq_getElem hlt2] at hcp2
      exact Option.some.inj hcp2
    conv_lhs => rw [loop.eq_def]
    rw [dif_pos hlt]
    dsimp only
    rw [hgc, if_neg (by decide), if_neg (by decide), if_neg (by decide), if_pos rfl,
      dif_pos hlt2, hgc2,
      if_neg (by intro hcon; rcases hcon with h | h; exact hs2 h; exact hst2 h)]

/-- Claim C4, witness at input "x/" (trailing '/' at end of input). -/
theorem C4_witness :
    loop ['x', '/'] ⟨0, 1⟩ .NormalTok 1 =
      (some ⟨slice ['x', '/'] 0 2, 1, byteOff ['x', '/'] 0⟩, ⟨2, 1⟩) :=
  (C4_thm ['x', '/'] ⟨0, 1⟩ 1 rfl (by decide)).1 rfl

/-- Claim C5 (confirmed): end-of-input policy.  If the input is exhausted
while the scanner is in QuotedTok or EscapeChar, the accumulated text is
returned as a pretoken spanning to the end of the input (an unterminated
quoted string is still emitted, not an error); if it is exhausted in WS,
MaybeComment, LineComment, BlockComment or MaybeBlockCommentDone, the
partial comment or whitespace is silently discarded and the call returns
the end-of-input signal `none` with the resume position synced. -/
theorem C5_thm : ∀ (input : List Char) (self : Pretokenizer) (curs : Nat),
    input[curs]? = none → curs ≤ input.length →
    (self.pos < curs →
      loop input self .QuotedTok curs =
        (some ⟨slice input self.pos curs, self.line, byteOff input self.pos⟩,
          ⟨curs, self.line⟩) ∧
      loop input self .EscapeChar curs =
        (some ⟨slice input self.pos curs, self.line, byteOff input self.pos⟩,
          ⟨curs, self.line⟩)) ∧
    loop input self .WS curs = (none, ⟨curs, self.line⟩) ∧
    loop input self .MaybeComment curs = (none, ⟨curs, self.line⟩) ∧
    loop input self .LineComment curs = (none, ⟨curs, self.line⟩) ∧
    loop input self .BlockComment curs = (none, ⟨curs, self.line⟩) ∧
    loop input self .MaybeBlockCommentDone curs = (none, ⟨curs, self.line⟩) := by
  intro input self curs heof hc
  have hge : input.length ≤ curs := by
    rcases Nat.lt_or_ge curs input.length with h | h
    · rw [List.getElem?_eq_getElem h] at heof; cases heof
    · exact h
  refine ⟨fun hpos => ⟨?_, ?_⟩, ?_, ?_, ?_, ?_, ?_⟩
  · rw [loop.eq_def, dif_neg (by omega)]
    unfold eof_step make_pretok Pretoken.new sliceBetween
    rw [if_neg (by omega), if_pos ⟨by omega, by omega⟩]
    rfl
  · rw [loop.eq_def, dif_neg (by omega)]
    unfold eof_step make_pretok Pretoken.new sliceBetween
    rw [if_neg (by omega), if_pos ⟨by omega, by omega⟩]
    rfl
  · rw [loop.eq_def, dif_neg (by omega)]
    rfl
  · rw [loop.eq_def, dif_neg (by omega)]
    rfl
  · rw [loop.eq_def, dif_neg (by omega)]
    rfl
  · rw [loop.eq_def, dif_neg (by omega)]
    rfl
  · rw [loop.eq_def, dif_neg (by omega)]
    rfl

/-- Claim C5, witness on input consisting of a single quote character,
exhausted at cursor 1: the unterminated quoted string is emitted, and the
same exhaustion in BlockComment returns the end-of-input signal. -/
theorem C5_witness :
    loop ['"'] ⟨0, 1⟩ .QuotedTok 1 =
      (some ⟨slice ['"'] 0 1, 1, byteOff ['"'] 0⟩, ⟨1, 1⟩) ∧
    loop ['"'] ⟨0, 1⟩ .BlockComment 1 = (none, ⟨1, 1⟩) :=
  ⟨((C5_thm ['"'] ⟨0, 1⟩ 1 rfl (by decide)).1 (by decide)).1,
   (C5_thm ['"'] ⟨0, 1⟩ 1 rfl (by decide)).2.2.2.2.1⟩

/-- Claim C6 (confirmed): in state EscapeChar the next code point is
consumed as a literal and the scanner returns to QuotedTok unconditionally
— in particular an escaped double quote never terminates the string — and
if the escaped code point is a newline the line counter is incremented. -/
theorem C6_thm : ∀ (input : List Char) (self : Pretokenizer) (curs : Nat) (c : Char),
    input[curs]? = some c →
    loop input self .EscapeChar curs =
      loop input ⟨self.pos, if c = '\n' then self.line + 1 else self.line⟩
        .QuotedTok (curs + 1) := by
  intro input self curs c hcp
  have hlt : curs < input.length := by
    rcases Nat.lt_or_ge curs input.length with h | h
    · exact h
    · rw [List.getElem?_eq_none h] at hcp; cases hcp
  have hgc : input[curs] = c := by
    rw [List.getElem?_eq_getElem hlt] at hcp
    exact Option.some.inj hcp
  conv_lhs => rw [loop.eq_def]
  rw [dif_pos hlt]
  dsimp only
  rw [hgc]
  by_cases h : c = '\n'
  · rw [if_pos h, if_pos h]
  · rw [if_neg h, if_neg h]

/-- Claim C6, witness: an escaped quote (input quote, backslash, quote)
stays inside the string, and an escaped newline increments the line. -/
theorem C6_witness :
    loop ['"', '\\', '"'] ⟨0, 1⟩ .EscapeChar 2 =
      loop ['"', '\\', '"'] ⟨0, if '"' = '\n' then 1 + 1 else 1⟩ .QuotedTok 3 ∧
    loop ['\n'] ⟨0, 1⟩ .EscapeChar 0 =
      loop ['\n'] ⟨0, if '\n' = '\n' then 1 + 1 else 1⟩ .QuotedTok 1 :=
  ⟨C6_thm ['"', '\\', '"'] ⟨0, 1⟩ 2 '"' rfl,
   C6_thm ['\n'] ⟨0, 1⟩ 0 '\n' rfl⟩

/-- Claim C7 (confirmed): the emitted pretokens appear in strictly
increasing offset order, each pretoken's text equals the byte substring of
the original input starting at its offset with the text's byte length, and
concatenating the pretokens' texts with the inter-token gap spans of the
original input, recovered by offset arithmetic, reproduces the original
input exactly. -/
theorem C7_thm (input : List Char) :
    List.Pairwise (fun a b => a.offset < b.offset) (tokens input) ∧
    (∀ tok ∈ tokens input,
      toBytes tok.s =
        ((toBytes input).take (tok.offset + utf8Len tok.s)).drop tok.offset) ∧
    reconstruct (toBytes input) 0 (tokens input) = toBytes input := by
  refine ⟨spanchain_pairwise_lt input 0 (tokens input) (tokens_spans input),
    spanchain_substring input 0 (tokens input) (tokens_spans input), ?_⟩
  have h := spanchain_reconstruct input 0 (tokens input) (tokens_spans input)
  rw [show byteOff input 0 = 0 from rfl, List.drop_zero] at h
  exact h

/-- Claim C7, witness at input "x". -/
theorem C7_witness :
    toBytes (⟨['x'], 1, 0⟩ : Pretoken).s =
      ((toBytes ['x']).take ((⟨['x'], 1, 0⟩ : Pretoken).offset +
        utf8Len (⟨['x'], 1, 0⟩ : Pretoken).s)).drop (⟨['x'], 1, 0⟩ : Pretoken).offset ∧
    reconstruct (toBytes ['x']) 0 (tokens ['x']) = toBytes ['x'] :=
  ⟨(C7_thm ['x']).2.1 ⟨['x'], 1, 0⟩
      (by rw [tokens_single_x]; exact List.mem_singleton_self _),
   (C7_thm ['x']).2.2⟩

/-- Claim C8 (confirmed): repeatedly calling `next` eventually returns the
end-of-input signal — after at most `input.length` additional calls from a
fresh scanner — and once a call returns `none` every subsequent call also
returns `none` with the scanner state (in particular its resume position)
unchanged. -/
theorem C8_thm :
    (∀ (input : List Char) (n : Nat), input.length ≤ n →
      (advanceN input Pretokenizer.new n).1 = none) ∧
    (∀ (input : List Char) (t t2 : Pretokenizer), next input t = (none, t2) →
      next input t2 = (none, t2)) :=
  ⟨fun input n h => advanceN_none input n Pretokenizer.new (by
      change input.length ≤ 0 + n
      omega),
   fun input t t2 h => next_none_final input h⟩

/-- Claim C8, witness. -/
theorem C8_witness :
    (advanceN ['a'] Pretokenizer.new 1).1 = none ∧
    next ([] : List Char) ⟨0, 1⟩ = (none, ⟨0, 1⟩) :=
  ⟨C8_thm.1 ['a'] 1 (by decide),
   C8_thm.2 [] ⟨0, 1⟩ ⟨0, 1⟩ (next_none_of_ge [] ⟨0, 1⟩ (by decide))⟩

/-- Claim C9 (confirmed): every call of `next` is a total function of the
scanner state (the Lean definition of `loop` is accepted by the
termination checker with the measure `(input.length - curs, rank state)`,
mirroring the argument that the cursor only moves forward); the cursor
never moves backwards and stays bounded, and whenever a pretoken is
emitted the start and end cursors of its slice lie in the input with start
before end, so `slice_between(..).unwrap()` in `Pretoken::new` always
succeeds (`sliceBetween` returns `some`). -/
theorem C9_thm : ∀ (input : List Char) (t : Pretokenizer),
    t.pos ≤ (next input t).2.pos ∧
    (next input t).2.pos ≤ max t.pos input.length ∧
    ∀ tok, (next input t).1 = some tok →
      ∃ st, t.pos ≤ st ∧ st < (next input t).2.pos ∧
        (next input t).2.pos ≤ input.length ∧
        sliceBetween input st ((next input t).2.pos) = some tok.s := by
  intro input t
  rcases le_or_lt t.pos input.length with hp | hp
  · have hpost := next_post input t hp
    cases hnext : next input t with
    | mk r t2 =>
      rw [hnext] at hpost
      dsimp only
      cases r with
      | none =>
        have h2 : t2.pos = input.length := hpost
        refine ⟨by omega, by rw [h2]; exact Nat.le_max_right _ _, fun tok htok => ?_⟩
        simp at htok
      | some tok0 =>
        obtain ⟨st, h1, h2, h3, h4, h5, h6, h7, h8⟩ := hpost
        refine ⟨by omega, le_trans h4 (Nat.le_max_right _ _), fun tok htok => ?_⟩
        have heq : tok0 = tok := Option.some.inj htok
        subst heq
        refine ⟨st, h1, h2, h4, ?_⟩
        unfold sliceBetween
        rw [if_pos ⟨le_of_lt h2, h4⟩, h5]
  · rw [next_none_of_ge input t (le_of_lt hp)]
    dsimp only
    exact ⟨le_refl _, Nat.le_max_left _ _, fun tok htok => by simp at htok⟩

/-- Claim C9, witness at input "a". -/
theorem C9_witness :
    ∃ st, (⟨0, 1⟩ : Pretokenizer).pos ≤ st ∧
      st < (next ['a'] ⟨0, 1⟩).2.pos ∧
      (next ['a'] ⟨0, 1⟩).2.pos ≤ (['a'] : List Char).length ∧
      sliceBetween ['a'] st ((next ['a'] ⟨0, 1⟩).2.pos) = some (⟨['a'], 1, 0⟩ : Pretoken).s :=
  (C9_thm ['a'] ⟨0, 1⟩).2.2 ⟨['a'], 1, 0⟩ (by
    simp [next, loop, eof_step, make_pretok, Pretoken.new, sliceBetween, slice,
      byteOff, utf8Len, encodeChar])

/-- Claim C10, counterexample: on input "/ x" the emitted pretoken is the
two characters space, 'x': it does not begin with a double quote, yet it
contains a space. -/
theorem C10_counterexample :
    tokens ['/', ' ', 'x'] = [⟨[' ', 'x'], 1, 1⟩] ∧
    ∀ tok ∈ tokens ['/', ' ', 'x'],
      tok.s.head? ≠ some '"' ∧ ' ' ∈ tok.s := by
  refine ⟨tokens_slash_space_x, ?_⟩
  rw [tokens_slash_space_x]
  intro tok htok
  rw [List.mem_singleton] at htok
  subst htok
  exact ⟨by decide, by decide⟩

/-- Claim C10 (amended): every emitted pretoken is nonempty, and every
emitted pretoken whose text does not begin with a double quote contains no
double quote anywhere and no space, tab or newline in any position after
its first character.  (Its first character can be whitespace, but only
after a silently dropped '/', as in the counterexample "/ x".) -/
theorem C10_thm : ∀ (input : List Char), ∀ tok ∈ tokens input,
    tok.s ≠ [] ∧
    (tok.s.head? ≠ some '"' →
      '"' ∉ tok.s ∧ ∀ c ∈ tok.s.drop 1, c ≠ ' ' ∧ c ≠ '\t' ∧ c ≠ '\n') := by
  intro input tok htok
  obtain ⟨st, e, hlt, hle, hs, hoff, hcontent⟩ :=
    spanchain_mem input 0 (tokens input) (tokens_spans input) tok htok
  have hlen : tok.s.length = e - st := by
    rw [hs]
    exact slice_length input hle
  have hget : ∀ k, k < e - st → tok.s[k]? = input[st + k]? := by
    intro k hk
    rw [hs]
    exact slice_getElem? input hle hk
  have hne : tok.s ≠ [] := by
    rw [hs]
    exact slice_ne_nil input hlt hle
  refine ⟨hne, fun hhead => ?_⟩
  have hhead2 : tok.s.head? = input[st]? := by
    rw [List.head?_eq_getElem?, hget 0 (by omega), Nat.add_zero]
  have hq : (∀ c, input[st]? = some c → c ≠ '"') ∧
      ∀ i c, st < i → i < e → input[i]? = some c → ¬ isSep c := by
    rcases hcontent with h | h
    · rw [hhead2, h] at hhead
      exact absurd rfl hhead
    · exact h
  constructor
  · intro hmem
    obtain ⟨k, hk⟩ := List.mem_iff_getElem?.mp hmem
    have hklt : k < e - st := by
      rcases Nat.lt_or_ge k tok.s.length with h | h
      · omega
      · rw [List.getElem?_eq_none h] at hk; cases hk
    rw [hget k hklt] at hk
    rcases Nat.eq_zero_or_pos k with hk0 | hk0
    · subst hk0
      rw [Nat.add_zero] at hk
      exact hq.1 '"' hk rfl
    · exact absurd (show isSep '"' by decide)
        (hq.2 (st + k) '"' (by omega) (by omega) hk)
  · intro c hc
    obtain ⟨k, hk⟩ := List.mem_iff_getElem?.mp hc
    rw [List.getElem?_drop] at hk
    have hklt : 1 + k < e - st := by
      rcases Nat.lt_or_ge (1 + k) tok.s.length with h | h
      · omega
      · rw [List.getElem?_eq_none h] at hk; cases hk
    rw [hget (1 + k) hklt] at hk
    have hns := hq.2 (st + (1 + k)) c (by omega) (by omega) hk
    unfold isSep at hns
    push_neg at hns
    exact ⟨hns.1, hns.2.1, hns.2.2.1⟩

/-- Claim C10, witness at input "x". -/
theorem C10_witness :
    '"' ∉ (⟨['x'], 1, 0⟩ : Pretoken).s ∧
    ∀ c ∈ (⟨['x'], 1, 0⟩ : Pretoken).s.drop 1, c ≠ ' ' ∧ c ≠ '\t' ∧ c ≠ '\n' :=
  (C10_thm ['x'] ⟨['x'], 1, 0⟩
      (by rw [tokens_single_x]; exact List.mem_singleton_self _)).2 (by decide)

end Pretok
